import Mathlib

/-!
# Verification of the giotto-learn Mapper pipeline specification

This development gives a shallow embedding of the Mapper-graph pipeline of
the giotto-learn repository and settles a list of claims about it.

The repository snapshot available here contains only the Sphinx API
declarations of `giotto.mapper` (filters, `OneDimensionalCover`,
`CubicalCover`, `FirstSimpleGap`, `FirstHistogramGap`,
`mapper.pipeline.MapperPipeline`) and a CI build script; the Python bodies
of the mapper components are not present.  Following the specification
document, the components are therefore modelled from the spec, faithfully
to its words: filter values are rationals (exact arithmetic standing for
the numeric values), points are identified by their indices `0..N-1`, and
every definition is executable.
-/

set_option allowUnsafeReducibility true

attribute [semireducible] Rat.add Rat.mul Rat.inv Rat.sub Rat.ofScientific

namespace GiottoMapper

/-- Modelled from the spec: a 1-D cover element, "a half-open (or closed,
policy-defined) region in ... filter space (an interval per dimension)".
The Python classes `giotto.mapper.OneDimensionalCover` /
`giotto.mapper.CubicalCover` are not under `src/`; only their API
declarations are. We take the closed-bounds policy, which realises the
spec's tie rule: "a point with ties at interval boundaries must be
assigned to all overlapping intervals it qualifies for". -/
structure Interval where
  lo : ℚ
  hi : ℚ
deriving DecidableEq, Repr

/-- Modelled from the spec: the membership predicate of a cover element,
"does a given filter-space point lie within this element (using the
inflated, overlapping bounds)?" (§4.2). -/
def memb (I : Interval) (x : ℚ) : Bool :=
  decide (I.lo ≤ x) && decide (x ≤ I.hi)

theorem memb_iff {I : Interval} {x : ℚ} :
    memb I x = true ↔ I.lo ≤ x ∧ x ≤ I.hi := by
  simp [memb]

/-- Modelled from the spec: the `i`-th inflated interval of a 1-D cover with
left endpoint `mn`, base interval width `L` and overlap fraction `p`: the
base interval `[mn + i*L, mn + (i+1)*L]` has its width multiplied by
`1 + p`, keeping its center fixed. -/
def coverElt (mn L p : ℚ) (i : ℕ) : Interval :=
  ⟨mn + ((i : ℚ) + 1/2) * L - L * (1 + p) / 2,
   mn + ((i : ℚ) + 1/2) * L + L * (1 + p) / 2⟩

/-- Modelled from the spec (§4.2, `giotto.mapper.OneDimensionalCover`, whose
Python body is not under `src/`): "computes `n_intervals` equal-width
intervals over `[min, max]` inflated by an overlap fraction `p` on each side
(each interval's width multiplied by `1 + p`, keeping centers fixed)";
"Degenerate input (`min == max`, i.e., constant filter) must produce a
single interval covering the point, not a division-by-zero failure." -/
def OneDimensionalCover (mn mx : ℚ) (n : ℕ) (p : ℚ) : List Interval :=
  if mn = mx then [⟨mn, mx⟩]
  else (List.range n).map (coverElt mn ((mx - mn) / n) p)

theorem OneDimensionalCover_degenerate (mn : ℚ) (n : ℕ) (p : ℚ) :
    OneDimensionalCover mn mn n p = [⟨mn, mn⟩] := by
  simp [OneDimensionalCover]

/-- The base (uninflated) interval number `i` is contained in the inflated
cover element number `i`, provided the overlap fraction is nonnegative. -/
theorem base_subset_inflated {mn mx : ℚ} {n : ℕ} {p : ℚ} (hne : mn ≠ mx)
    (hp : 0 ≤ p) (hL : 0 ≤ (mx - mn) / n) (i : ℕ) (hi : i < n) {x : ℚ}
    (hlo : mn + (i : ℚ) * ((mx - mn) / n) ≤ x)
    (hhi : x ≤ mn + ((i : ℚ) + 1) * ((mx - mn) / n)) :
    ∃ I ∈ OneDimensionalCover mn mx n p, memb I x = true := by
  set L : ℚ := (mx - mn) / n with hLdef
  refine ⟨coverElt mn L p i, ?_, ?_⟩
  · rw [OneDimensionalCover, if_neg hne]
    exact List.mem_map.mpr ⟨i, List.mem_range.mpr hi, rfl⟩
  · rw [memb_iff, coverElt]
    constructor
    · have h1 : mn + ((i : ℚ) + 1/2) * L - L * (1 + p) / 2
          ≤ mn + (i : ℚ) * L := by nlinarith
      exact le_trans h1 hlo
    · have h2 : mn + ((i : ℚ) + 1) * L
          ≤ mn + ((i : ℚ) + 1/2) * L + L * (1 + p) / 2 := by nlinarith
      exact le_trans hhi h2

/-- Modelled from the spec: 1-D cover completeness (§8 property 1), proved
for `OneDimensionalCover` — every value of the observed range `[mn, mx]`
satisfies the membership predicate of some cover element. -/
theorem oneDCover_complete {mn mx : ℚ} {n : ℕ} {p : ℚ}
    (hn : 0 < n) (hp : 0 ≤ p) {x : ℚ} (hlo : mn ≤ x) (hhi : x ≤ mx) :
    ∃ I ∈ OneDimensionalCover mn mx n p, memb I x = true := by
  by_cases hne : mn = mx
  · subst hne
    refine ⟨⟨mn, mn⟩, ?_, ?_⟩
    · simp [OneDimensionalCover]
    · rw [memb_iff]; exact ⟨hlo, hhi⟩
  · have hlt : mn < mx := lt_of_le_of_ne (le_trans hlo hhi) hne
    set L : ℚ := (mx - mn) / n with hLdef
    have hLpos : 0 < L := by
      apply div_pos (by linarith) (by exact_mod_cast hn)
    -- index of the base interval containing x, clamped to n - 1
    set k : ℤ := ⌊(x - mn) / L⌋ with hkdef
    have hk0 : 0 ≤ k := by
      apply Int.floor_nonneg.mpr
      apply div_nonneg (by linarith) (le_of_lt hLpos)
    have hkn : (x - mn) / L ≤ (n : ℚ) := by
      rw [div_le_iff₀ hLpos, hLdef]
      have hn0 : (0 : ℚ) < (n : ℚ) := by exact_mod_cast hn
      have hmul : (n : ℚ) * ((mx - mn) / n) = mx - mn := by field_simp
      linarith
    by_cases hktop : k < (n : ℤ)
    · -- the usual case: x lies in base interval number k
      have hkn' : k.toNat < n := by omega
      have hcast : ((k.toNat : ℕ) : ℚ) = (k : ℚ) := by
        have := Int.toNat_of_nonneg hk0
        exact_mod_cast congrArg (fun z : ℤ => (z : ℚ)) this
      apply base_subset_inflated hne hp (le_of_lt hLpos) k.toNat hkn'
      · have h1 : (k : ℚ) ≤ (x - mn) / L := Int.floor_le _
        have h2 : (k : ℚ) * L ≤ x - mn := (le_div_iff₀ hLpos).mp h1
        rw [hcast]; linarith
      · have h1 : (x - mn) / L < (k : ℚ) + 1 := Int.lt_floor_add_one _
        have h2 : x - mn < ((k : ℚ) + 1) * L := (div_lt_iff₀ hLpos).mp h1
        rw [hcast]; linarith
    · -- x = mx exactly: clamp to the last interval
      have hkk : (n : ℚ) ≤ (x - mn) / L := by
        have h1 : ((n : ℤ) : ℚ) ≤ (k : ℚ) := by exact_mod_cast not_lt.mp hktop
        have h2 : (k : ℚ) ≤ (x - mn) / L := Int.floor_le _
        calc (n : ℚ) = ((n : ℤ) : ℚ) := by push_cast; ring
        _ ≤ (k : ℚ) := h1
        _ ≤ (x - mn) / L := h2
      have hxeq : x - mn = (n : ℚ) * L := by
        have : (x - mn) / L = (n : ℚ) := le_antisymm hkn hkk
        field_simp at this
        linarith
      have hn1 : n - 1 < n := by omega
      have hcast1 : (((n - 1 : ℕ)) : ℚ) = (n : ℚ) - 1 := by
        have h1 : (1 : ℕ) ≤ n := hn
        push_cast [Nat.cast_sub h1]
        ring
      apply base_subset_inflated hne hp (le_of_lt hLpos) (n - 1) hn1
      · rw [hcast1]; nlinarith
      · rw [hcast1]; nlinarith

/-- Modelled from the spec (§4.2, `giotto.mapper.CubicalCover`, whose Python
body is not under `src/`): "applies a OneDimensionalCover independently to
each filter dimension, then takes the Cartesian product of the
per-dimension interval sets to form hyper-rectangular cover elements".
A hyper-rectangular element is one choice of interval per dimension, so
the product is the list of sections of the per-dimension cover lists. -/
def CubicalCover (ranges : List (ℚ × ℚ)) (n : ℕ) (p : ℚ) :
    List (List Interval) :=
  (ranges.map (fun r => OneDimensionalCover r.1 r.2 n p)).sections

/-- Modelled from the spec: membership predicate of a hyper-rectangular
cover element — the filter-space point lies inside the element's interval
in every dimension. -/
def membCube : List Interval → List ℚ → Bool
  | [], [] => true
  | I :: Is, x :: xs => memb I x && membCube Is xs
  | _, _ => false

theorem membCube_of_forall₂ {Is : List Interval} {xs : List ℚ}
    (h : List.Forall₂ (fun I x => memb I x = true) Is xs) :
    membCube Is xs = true := by
  induction h with
  | nil => rfl
  | cons hd _ ih => simp [membCube, hd, ih]

/-- Modelled from the spec: cubical cover completeness — a point whose
filter value lies inside the observed per-dimension range in every
dimension belongs to some hyper-rectangular cover element. -/
theorem cubicalCover_complete {ranges : List (ℚ × ℚ)} {xs : List ℚ}
    {n : ℕ} {p : ℚ} (hn : 0 < n) (hp : 0 ≤ p)
    (hlen : xs.length = ranges.length)
    (hin : List.Forall₂ (fun (x : ℚ) (r : ℚ × ℚ) => r.1 ≤ x ∧ x ≤ r.2)
      xs ranges) :
    ∃ Is ∈ CubicalCover ranges n p, membCube Is xs = true := by
  induction hin with
  | nil =>
    exact ⟨[], by simp [CubicalCover, List.sections], rfl⟩
  | cons hd tl ih =>
    obtain ⟨Is, hIs, hmemb⟩ := ih (by simpa using hlen)
    obtain ⟨I, hI, hIx⟩ := oneDCover_complete hn hp hd.1 hd.2
    refine ⟨I :: Is, ?_, ?_⟩
    · rw [CubicalCover, List.mem_sections]
      simp only [List.map_cons, List.forall₂_cons]
      refine ⟨hI, ?_⟩
      rw [CubicalCover, List.mem_sections] at hIs
      exact hIs
    · simp [membCube, hIx, hmemb]

/-- Smallest element of a list of rationals (`0` for the empty list): the
lower end of the observed filter range. -/
def listMin : List ℚ → ℚ
  | [] => 0
  | [x] => x
  | x :: y :: t => min x (listMin (y :: t))

/-- Largest element of a list of rationals (`0` for the empty list): the
upper end of the observed filter range. -/
def listMax : List ℚ → ℚ
  | [] => 0
  | [x] => x
  | x :: y :: t => max x (listMax (y :: t))

theorem listMin_le {l : List ℚ} {v : ℚ} (h : v ∈ l) : listMin l ≤ v := by
  induction l with
  | nil => cases h
  | cons x t ih =>
    cases t with
    | nil =>
      rcases List.mem_singleton.mp h with rfl
      exact le_refl _
    | cons y s =>
      rcases List.mem_cons.mp h with rfl | hmem
      · exact min_le_left _ _
      · exact le_trans (min_le_right _ _) (ih hmem)

theorem le_listMax {l : List ℚ} {v : ℚ} (h : v ∈ l) : v ≤ listMax l := by
  induction l with
  | nil => cases h
  | cons x t ih =>
    cases t with
    | nil =>
      rcases List.mem_singleton.mp h with rfl
      exact le_refl _
    | cons y s =>
      rcases List.mem_cons.mp h with rfl | hmem
      · exact le_max_left _ _
      · exact le_trans (ih hmem) (le_max_right _ _)

theorem listMin_const {l : List ℚ} {c : ℚ} (hne : l ≠ [])
    (h : ∀ v ∈ l, v = c) : listMin l = c := by
  induction l with
  | nil => exact absurd rfl hne
  | cons x t ih =>
    cases t with
    | nil => simpa [listMin] using h x (by simp)
    | cons y s =>
      have hx : x = c := h x (by simp)
      have ht : listMin (y :: s) = c :=
        ih (by simp) (fun v hv => h v (List.mem_cons_of_mem _ hv))
      simp [listMin, hx, ht]

theorem listMax_const {l : List ℚ} {c : ℚ} (hne : l ≠ [])
    (h : ∀ v ∈ l, v = c) : listMax l = c := by
  induction l with
  | nil => exact absurd rfl hne
  | cons x t ih =>
    cases t with
    | nil => simpa [listMax] using h x (by simp)
    | cons y s =>
      have hx : x = c := h x (by simp)
      have ht : listMax (y :: s) = c :=
        ih (by simp) (fun v hv => h v (List.mem_cons_of_mem _ hv))
      simp [listMax, hx, ht]

/-- Modelled from the spec (§4.4, `giotto.mapper.FirstSimpleGap`, whose
Python body is not under `src/`): the gap-cutting core of the clusterer —
having sorted the element's points by their 1-D value (`key`), cut the
sorted sequence at every gap between consecutive values exceeding the
threshold `eps`; each maximal run between cuts is one cluster.  "sort
intra-cluster pairwise distances (or a 1-D projection ...), scan for the
first gap exceeding a relative threshold, and cut there ... a
single-linkage-like heuristic". -/
def splitGaps (key : ℕ → ℚ) (eps : ℚ) : List ℕ → List (List ℕ)
  | [] => []
  | [i] => [[i]]
  | i :: j :: rest =>
    match splitGaps key eps (j :: rest) with
    | [] => [[i]]
    | c :: cs =>
      if eps < key j - key i then [i] :: c :: cs else (i :: c) :: cs

theorem splitGaps_flatten (key : ℕ → ℚ) (eps : ℚ) :
    ∀ l : List ℕ, (splitGaps key eps l).flatten = l := by
  intro l
  induction l with
  | nil => rfl
  | cons i t ih =>
    cases t with
    | nil => rfl
    | cons j rest =>
      rw [splitGaps]
      rcases hsg : splitGaps key eps (j :: rest) with _ | ⟨c, cs⟩
      · rw [hsg] at ih
        simp at ih
      · rw [hsg] at ih
        by_cases hgap : eps < key j - key i
        · simp only [if_pos hgap, List.flatten_cons] at *
          simp [ih]
        · simp only [if_neg hgap, List.flatten_cons] at *
          simp [ih]

theorem splitGaps_nil (key : ℕ → ℚ) (eps : ℚ) : splitGaps key eps [] = [] :=
  rfl

theorem splitGaps_singleton (key : ℕ → ℚ) (eps : ℚ) (i : ℕ) :
    splitGaps key eps [i] = [[i]] := rfl

theorem splitGaps_chunk_ne_nil (key : ℕ → ℚ) (eps : ℚ) :
    ∀ l : List ℕ, ∀ c ∈ splitGaps key eps l, c ≠ [] := by
  intro l
  induction l with
  | nil => intro c hc; cases hc
  | cons i t ih =>
    cases t with
    | nil =>
      intro c hc
      rcases List.mem_singleton.mp hc with rfl
      simp
    | cons j rest =>
      intro c hc
      rw [splitGaps] at hc
      rcases hsg : splitGaps key eps (j :: rest) with _ | ⟨c0, cs⟩
      · rw [hsg] at hc
        rcases List.mem_singleton.mp hc with rfl
        simp
      · rw [hsg] at hc
        change c ∈ (if eps < key j - key i then [i] :: c0 :: cs
          else (i :: c0) :: cs) at hc
        by_cases hgap : eps < key j - key i
        · rw [if_pos hgap] at hc
          rcases List.mem_cons.mp hc with rfl | hc2
          · simp
          · exact ih c (hsg ▸ hc2)
        · rw [if_neg hgap] at hc
          rcases List.mem_cons.mp hc with rfl | hc2
          · simp
          · exact ih c (hsg ▸ (List.mem_cons_of_mem c0 hc2))

/-- Chunks of a duplicate-free flattening are pairwise disjoint. -/
theorem disjoint_of_nodup_flatten {cs : List (List ℕ)}
    (h : cs.flatten.Nodup) {i j : ℕ} (hi : i < cs.length)
    (hj : j < cs.length) (hij : i ≠ j) :
    ∀ a ∈ cs.get ⟨i, hi⟩, a ∉ cs.get ⟨j, hj⟩ := by
  have hpw : List.Pairwise List.Disjoint cs := (List.nodup_flatten.mp h).2
  rcases lt_or_gt_of_ne hij with hlt | hgt
  · exact List.pairwise_iff_get.mp hpw ⟨i, hi⟩ ⟨j, hj⟩ hlt
  · exact fun a hai haj =>
      (List.pairwise_iff_get.mp hpw ⟨j, hj⟩ ⟨i, hi⟩ hgt) haj hai

/-- Modelled from the spec (§4.4, `giotto.mapper.FirstSimpleGap`, whose
Python body is not under `src/`): the clusterer applied to one cover
element's partition — restrict to the element's point indices, order them
by their 1-D coordinate `key`, and cut at gaps exceeding the relative
threshold `eps`.  Produces "zero or more disjoint clusters whose union
equals the partition's point set". -/
def FirstSimpleGap (key : ℕ → ℚ) (eps : ℚ) (part : List ℕ) :
    List (List ℕ) :=
  splitGaps key eps (part.insertionSort (fun a b => key a ≤ key b))

theorem FirstSimpleGap_flatten_perm (key : ℕ → ℚ) (eps : ℚ)
    (part : List ℕ) : (FirstSimpleGap key eps part).flatten.Perm part := by
  rw [FirstSimpleGap, splitGaps_flatten]
  exact List.perm_insertionSort _ part

/-- Modelled from the spec (§6): the configuration of the pipeline —
number of intervals, overlap fraction and clustering gap threshold.  The
Python class `giotto.mapper.pipeline.MapperPipeline` is not under `src/`. -/
structure MapperPipeline where
  nIntervals : ℕ
  overlapFrac : ℚ
  gapThreshold : ℚ
deriving DecidableEq, Repr

/-- Modelled from the spec (§7): the error taxonomy; only the
configuration-validation error is reachable in this embedding. -/
inductive MapperError where
  | invalidParameter
deriving DecidableEq, Repr

/-- Modelled from the spec (§4.6, §6): configuration validation — interval
count positive, overlap fraction in `(0,1)`, clustering threshold
positive. -/
def validConfig (cfg : MapperPipeline) : Bool :=
  decide (0 < cfg.nIntervals) && decide (0 < cfg.overlapFrac)
    && decide (cfg.overlapFrac < 1) && decide (0 < cfg.gapThreshold)

/-- Modelled from the spec (§4.6): "Fit validates configuration ... and
computes nothing else"; a malformed configuration raises
`InvalidParameter` eagerly, before any data is processed. -/
def fit (cfg : MapperPipeline) : Except MapperError MapperPipeline :=
  if validConfig cfg then Except.ok cfg else Except.error .invalidParameter

/-- Modelled from the spec (§3): a node of the Mapper graph — owning
cover-element index, local cluster label within that element, and the
point indices it contains. -/
structure MapperNode where
  elem : ℕ
  label : ℕ
  pts : List ℕ
deriving DecidableEq, Repr

/-- Modelled from the spec (§3): the output graph — node list plus edge
list; an edge is `(i, j, w)` with `i < j` positions in the node list and
`w` the shared-point-count weight. -/
structure MapperGraph where
  nodes : List MapperNode
  edges : List (ℕ × ℕ × ℕ)
deriving DecidableEq, Repr

/-- Modelled from the spec (§4.1): the filter output, one value per point,
same ordering as the input.  The point cloud is 1-D (`xs : List ℚ`) and
the filter a function on point values, covering the Projection filter on
1-D data and constant filters. -/
def filterValues (flt : ℚ → ℚ) (xs : List ℚ) : List ℚ :=
  xs.map flt

/-- Filter value of the point with index `i` (0 outside the range). -/
def fval (flt : ℚ → ℚ) (xs : List ℚ) (i : ℕ) : ℚ :=
  (filterValues flt xs).getD i 0

/-- Original 1-D coordinate of the point with index `i`; the clusterer's
sort key (pairwise distances in 1-D are coordinate differences). -/
def ptKey (xs : List ℚ) (i : ℕ) : ℚ :=
  xs.getD i 0

/-- Modelled from the spec (§4.2): the cover computed from the observed
filter range. -/
def coverOf (cfg : MapperPipeline) (flt : ℚ → ℚ) (xs : List ℚ) :
    List Interval :=
  OneDimensionalCover (listMin (filterValues flt xs))
    (listMax (filterValues flt xs)) cfg.nIntervals cfg.overlapFrac

/-- Modelled from the spec (§4.3, the partitioner): for a cover element,
the list of point indices whose filter value satisfies the element's
membership predicate. -/
def partitionOf (flt : ℚ → ℚ) (xs : List ℚ) (I : Interval) : List ℕ :=
  (List.range xs.length).filter (fun i => memb I (fval flt xs i))

/-- The partition of every cover element, in cover order. -/
def partitionsOf (cfg : MapperPipeline) (flt : ℚ → ℚ) (xs : List ℚ) :
    List (List ℕ) :=
  (coverOf cfg flt xs).map (partitionOf flt xs)

/-- The clusterer invocation for one cover element's partition. -/
def clusterOne (cfg : MapperPipeline) (xs : List ℚ) (part : List ℕ) :
    List (List ℕ) :=
  FirstSimpleGap (ptKey xs) cfg.gapThreshold part

/-- Modelled from the spec (§4.4–§4.5): one node per cluster, labelled by
owning cover-element index and local cluster label. -/
def nodesOf (cfg : MapperPipeline) (flt : ℚ → ℚ) (xs : List ℚ) :
    List MapperNode :=
  (partitionsOf cfg flt xs).enum.flatMap (fun pr =>
    (clusterOne cfg xs pr.2).enum.map (fun lc =>
      ⟨pr.1, lc.1, lc.2⟩))

/-- Number of points shared by two nodes. -/
def interWeight (a b : MapperNode) : ℕ :=
  (a.pts.inter b.pts).length

/-- Modelled from the spec (§4.5, the graph builder): "compute edges by
intersecting point-index sets across node pairs ... deduplicate edges (an
edge is added once even if supported by several shared points, but the
shared-point count is retained as edge weight)".  One candidate edge per
ordered position pair `i < j`, kept exactly when the nodes share a point,
with the shared-point count as weight. -/
def buildEdges (ns : List MapperNode) : List (ℕ × ℕ × ℕ) :=
  (List.range ns.length).flatMap (fun i =>
    (List.range ns.length).filterMap (fun j =>
      if i < j ∧ 0 < interWeight (ns.getD i ⟨0, 0, []⟩) (ns.getD j ⟨0, 0, []⟩)
      then some (i, j, interWeight (ns.getD i ⟨0, 0, []⟩) (ns.getD j ⟨0, 0, []⟩))
      else none))

/-- Modelled from the spec (§4.6): "Transform executes the full
filter→cover→partition→cluster→graph sequence and returns the graph." -/
def transform (cfg : MapperPipeline) (flt : ℚ → ℚ) (xs : List ℚ) :
    MapperGraph :=
  ⟨nodesOf cfg flt xs, buildEdges (nodesOf cfg flt xs)⟩

/-- Modelled from the spec (§4.6, §7): the full pipeline run — fit then
transform; configuration errors abort before any work is dispatched. -/
def runMapperPipeline (cfg : MapperPipeline) (flt : ℚ → ℚ)
    (xs : List ℚ) : Except MapperError MapperGraph :=
  (fit cfg).map (fun c => transform c flt xs)

theorem partitionOf_nodup (flt : ℚ → ℚ) (xs : List ℚ) (I : Interval) :
    (partitionOf flt xs I).Nodup :=
  (List.nodup_range _).filter _

theorem mem_partitionOf {flt : ℚ → ℚ} {xs : List ℚ} {I : Interval}
    {i : ℕ} : i ∈ partitionOf flt xs I ↔
      i < xs.length ∧ memb I (fval flt xs i) = true := by
  simp [partitionOf, List.mem_filter, List.mem_range]

theorem enum_determines {α : Type} {l : List α} {i : ℕ} {a b : α}
    (ha : (i, a) ∈ l.enum) (hb : (i, b) ∈ l.enum) : a = b := by
  rw [List.mk_mem_enum_iff_getElem?] at ha hb
  exact Option.some.inj (ha.symm.trans hb)

theorem enum_get {α : Type} {l : List α} {i : ℕ} {a : α}
    (ha : (i, a) ∈ l.enum) : ∃ hi : i < l.length, l.get ⟨i, hi⟩ = a := by
  rw [List.mk_mem_enum_iff_getElem?] at ha
  rcases List.getElem?_eq_some.mp ha with ⟨hi, hget⟩
  exact ⟨hi, hget⟩

theorem snd_mem_of_mem_enum {α : Type} {l : List α} {i : ℕ} {a : α}
    (ha : (i, a) ∈ l.enum) : a ∈ l := by
  rcases enum_get ha with ⟨hi, hget⟩
  exact hget ▸ List.get_mem l i hi

/-- Decomposition of membership in the node list: a node is an
(element index, cluster label, cluster) triple drawn from the enumerated
partitions and their enumerated clusterings. -/
theorem mem_nodesOf {cfg : MapperPipeline} {flt : ℚ → ℚ} {xs : List ℚ}
    {n : MapperNode} : n ∈ nodesOf cfg flt xs ↔
      ∃ part, (n.elem, part) ∈ (partitionsOf cfg flt xs).enum ∧
        (n.label, n.pts) ∈ (clusterOne cfg xs part).enum := by
  constructor
  · intro h
    obtain ⟨pr, hpr, hmem⟩ := List.mem_flatMap.mp h
    obtain ⟨lc, hlc, heq⟩ := List.mem_map.mp hmem
    refine ⟨pr.2, ?_, ?_⟩
    · have : n.elem = pr.1 := by rw [← heq]
      rw [this]
      exact hpr
    · have h1 : n.label = lc.1 := by rw [← heq]
      have h2 : n.pts = lc.2 := by rw [← heq]
      rw [h1, h2]
      exact hlc
  · rintro ⟨part, hpart, hlc⟩
    apply List.mem_flatMap.mpr
    refine ⟨(n.elem, part), hpart, ?_⟩
    apply List.mem_map.mpr
    exact ⟨(n.label, n.pts), hlc, rfl⟩

/-- Every partition produced by the pipeline is duplicate-free. -/
theorem partitions_mem_nodup {cfg : MapperPipeline} {flt : ℚ → ℚ}
    {xs : List ℚ} {part : List ℕ} (h : part ∈ partitionsOf cfg flt xs) :
    part.Nodup := by
  obtain ⟨I, _, hI⟩ := List.mem_map.mp h
  exact hI ▸ partitionOf_nodup flt xs I

/-- The flattening of one element's clustering is duplicate-free. -/
theorem clusterOne_flatten_nodup (cfg : MapperPipeline) (xs : List ℚ)
    {part : List ℕ} (h : part.Nodup) :
    (clusterOne cfg xs part).flatten.Nodup :=
  ((FirstSimpleGap_flatten_perm (ptKey xs) cfg.gapThreshold
    part).nodup_iff).mpr h

/-- The point list of every node of the pipeline is duplicate-free. -/
theorem node_pts_nodup {cfg : MapperPipeline} {flt : ℚ → ℚ} {xs : List ℚ}
    {n : MapperNode} (h : n ∈ nodesOf cfg flt xs) : n.pts.Nodup := by
  obtain ⟨part, hpart, hlc⟩ := mem_nodesOf.mp h
  have hnodup : (clusterOne cfg xs part).flatten.Nodup :=
    clusterOne_flatten_nodup cfg xs
      (partitions_mem_nodup (snd_mem_of_mem_enum hpart))
  exact (List.nodup_flatten.mp hnodup).1 n.pts (snd_mem_of_mem_enum hlc)

/-- Two distinct nodes of the same cover element have disjoint point
lists: they are distinct chunks of the duplicate-free flattening of that
element's clustering. -/
theorem nodes_same_elem_disjoint {cfg : MapperPipeline} {flt : ℚ → ℚ}
    {xs : List ℚ} {n₁ n₂ : MapperNode} (h₁ : n₁ ∈ nodesOf cfg flt xs)
    (h₂ : n₂ ∈ nodesOf cfg flt xs) (hne : n₁ ≠ n₂)
    (helem : n₁.elem = n₂.elem) : ∀ a ∈ n₁.pts, a ∉ n₂.pts := by
  obtain ⟨part₁, hpart₁, hlc₁⟩ := mem_nodesOf.mp h₁
  obtain ⟨part₂, hpart₂, hlc₂⟩ := mem_nodesOf.mp h₂
  rw [helem] at hpart₁
  have hpeq : part₁ = part₂ := enum_determines hpart₁ hpart₂
  subst hpeq
  have hlne : n₁.label ≠ n₂.label := by
    intro heq
    apply hne
    rw [heq] at hlc₁
    have := enum_determines hlc₁ hlc₂
    cases n₁; cases n₂
    simp_all
  rcases enum_get hlc₁ with ⟨hi₁, hg₁⟩
  rcases enum_get hlc₂ with ⟨hi₂, hg₂⟩
  have hnodup : (clusterOne cfg xs part₁).flatten.Nodup :=
    clusterOne_flatten_nodup cfg xs
      (partitions_mem_nodup (snd_mem_of_mem_enum hpart₁))
  have hdisj := disjoint_of_nodup_flatten hnodup hi₁ hi₂ hlne
  rw [hg₁, hg₂] at hdisj
  exact hdisj

/-- Characterization of the edge list: `(i, j, w)` is an edge exactly when
`i < j` are node positions whose nodes share at least one point, and `w`
is the shared-point count. -/
theorem mem_buildEdges {ns : List MapperNode} {i j w : ℕ} :
    (i, j, w) ∈ buildEdges ns ↔
      i < j ∧ j < ns.length ∧
      w = interWeight (ns.getD i ⟨0, 0, []⟩) (ns.getD j ⟨0, 0, []⟩) ∧
      0 < w := by
  constructor
  · intro h
    rw [buildEdges] at h
    obtain ⟨i0, hi0, hmem⟩ := List.mem_flatMap.mp h
    obtain ⟨j0, hj0, heq⟩ := List.mem_filterMap.mp hmem
    by_cases hc : i0 < j0 ∧
        0 < interWeight (ns.getD i0 ⟨0, 0, []⟩) (ns.getD j0 ⟨0, 0, []⟩)
    · rw [if_pos hc] at heq
      have h1 : i0 = i := congrArg Prod.fst (Option.some.inj heq)
      have h2 : j0 = j := congrArg (fun t => t.2.1) (Option.some.inj heq)
      have h3 : interWeight (ns.getD i0 ⟨0, 0, []⟩) (ns.getD j0 ⟨0, 0, []⟩)
          = w := congrArg (fun t => t.2.2) (Option.some.inj heq)
      subst h1; subst h2
      exact ⟨hc.1, List.mem_range.mp hj0, h3.symm, h3 ▸ hc.2⟩
    · rw [if_neg hc] at heq
      cases heq
  · rintro ⟨h1, h2, h3, h4⟩
    rw [buildEdges]
    apply List.mem_flatMap.mpr
    refine ⟨i, List.mem_range.mpr (lt_trans h1 h2), ?_⟩
    apply List.mem_filterMap.mpr
    refine ⟨j, List.mem_range.mpr h2, ?_⟩
    rw [if_pos ⟨h1, h3 ▸ h4⟩, h3]

/-- The edge list contains no duplicate entries. -/
theorem buildEdges_nodup (ns : List MapperNode) :
    (buildEdges ns).Nodup := by
  rw [buildEdges]
  rw [List.nodup_flatMap]
  constructor
  · intro i _
    apply List.Nodup.filterMap ?_ (List.nodup_range _)
    intro a a' b hb hb'
    by_cases hc : i < a ∧
        0 < interWeight (ns.getD i ⟨0, 0, []⟩) (ns.getD a ⟨0, 0, []⟩)
    · rw [if_pos hc, Option.mem_some_iff] at hb
      by_cases hc' : i < a' ∧
          0 < interWeight (ns.getD i ⟨0, 0, []⟩) (ns.getD a' ⟨0, 0, []⟩)
      · rw [if_pos hc', Option.mem_some_iff] at hb'
        exact congrArg (fun t => t.2.1) (hb.trans hb'.symm)
      · rw [if_neg hc'] at hb'
        simp at hb'
    · rw [if_neg hc] at hb
      simp at hb
  · apply List.Pairwise.imp ?_ (List.nodup_range ns.length)
    intro a b hab
    intro e hea heb
    obtain ⟨j1, _, he1⟩ := List.mem_filterMap.mp hea
    obtain ⟨j2, _, he2⟩ := List.mem_filterMap.mp heb
    have ha : e.1 = a := by
      by_cases hc : a < j1 ∧
          0 < interWeight (ns.getD a ⟨0, 0, []⟩) (ns.getD j1 ⟨0, 0, []⟩)
      · rw [if_pos hc] at he1
        rw [← Option.some.inj he1]
      · rw [if_neg hc] at he1
        cases he1
    have hb2 : e.1 = b := by
      by_cases hc : b < j2 ∧
          0 < interWeight (ns.getD b ⟨0, 0, []⟩) (ns.getD j2 ⟨0, 0, []⟩)
      · rw [if_pos hc] at he2
        rw [← Option.some.inj he2]
      · rw [if_neg hc] at he2
        cases he2
    exact hab (ha ▸ hb2)

/-- The shared-point count of two nodes equals the cardinality of the
intersection of their point-index sets, provided the first node's point
list is duplicate-free. -/
theorem interWeight_eq_card {a b : MapperNode} (ha : a.pts.Nodup) :
    interWeight a b = (a.pts.toFinset ∩ b.pts.toFinset).card := by
  rw [interWeight]
  have hnd : (a.pts.inter b.pts).Nodup := ha.inter _
  rw [← List.toFinset_card_of_nodup hnd]
  congr 1
  ext x
  constructor
  · intro hx
    have hx2 : x ∈ a.pts.inter b.pts := List.mem_toFinset.mp hx
    have := List.mem_inter_iff.mp hx2
    simp [this.1, this.2]
  · intro hx
    rcases Finset.mem_inter.mp hx with ⟨hx1, hx2⟩
    exact List.mem_toFinset.mpr
      (List.mem_inter_iff.mpr ⟨List.mem_toFinset.mp hx1,
        List.mem_toFinset.mp hx2⟩)

theorem inter_length_pos_iff {l₁ l₂ : List ℕ} :
    0 < (l₁.inter l₂).length ↔ ∃ a, a ∈ l₁ ∧ a ∈ l₂ := by
  rw [List.length_pos]
  constructor
  · intro h
    obtain ⟨a, ha⟩ := List.exists_mem_of_ne_nil _ h
    exact ⟨a, List.mem_inter_iff.mp ha⟩
  · rintro ⟨a, ha₁, ha₂⟩
    exact List.ne_nil_of_mem (List.mem_inter_iff.mpr ⟨ha₁, ha₂⟩)

/-- The node list of the pipeline contains no duplicate entries: the
(cover element, cluster label) pair is unique across the list. -/
theorem nodesOf_nodup (cfg : MapperPipeline) (flt : ℚ → ℚ) (xs : List ℚ) :
    (nodesOf cfg flt xs).Nodup := by
  rw [nodesOf, List.nodup_flatMap]
  constructor
  · intro pr _
    apply List.Nodup.map ?_ ?_
    · intro lc lc' h
      have h1 : lc.1 = lc'.1 := congrArg MapperNode.label h
      have h2 : lc.2 = lc'.2 := congrArg MapperNode.pts h
      exact Prod.ext h1 h2
    · exact List.Nodup.of_map Prod.fst (List.nodup_enum_map_fst _)
  · have hpw : List.Pairwise
        (fun a b : ℕ × List ℕ => a.1 ≠ b.1)
        (partitionsOf cfg flt xs).enum :=
      List.pairwise_map.mp (List.nodup_enum_map_fst _)
    apply List.Pairwise.imp ?_ hpw
    intro a b hab
    intro n hna hnb
    obtain ⟨lc, _, heq⟩ := List.mem_map.mp hna
    obtain ⟨lc', _, heq'⟩ := List.mem_map.mp hnb
    apply hab
    have e1 : n.elem = a.1 := by rw [← heq]
    have e2 : n.elem = b.1 := by rw [← heq']
    exact e1 ▸ e2

/-- Modelled from the spec (§5): the parallel fan-out over cover elements.
Each cover element's clustering task "writes its own cluster results into
a pre-sized results slot indexed by cover-element position (no
shared-memory contention ... slot ownership is exclusive per task)".
`order` is the order in which the worker pool happens to execute the
tasks; `slots` is the results array. -/
def runTasks (work : ℕ → List (List ℕ)) (order : List ℕ)
    (slots : ℕ → List (List ℕ)) : ℕ → List (List ℕ) :=
  match order with
  | [] => slots
  | o :: rest => runTasks work rest (Function.update slots o (work o))

/-- The clustering work of cover element number `e`. -/
def clusterTask (cfg : MapperPipeline) (flt : ℚ → ℚ) (xs : List ℚ)
    (e : ℕ) : List (List ℕ) :=
  clusterOne cfg xs ((partitionsOf cfg flt xs).getD e [])

/-- Modelled from the spec (§5): the cluster stage run by a worker pool
executing the per-element tasks in the (arbitrary) order `order`, read
back in cover-element position order after the barrier. -/
def scheduleRun (cfg : MapperPipeline) (flt : ℚ → ℚ) (xs : List ℚ)
    (order : List ℕ) : List (List (List ℕ)) :=
  (List.range (partitionsOf cfg flt xs).length).map
    (runTasks (clusterTask cfg flt xs) order (fun _ => []))

theorem runTasks_not_mem {work : ℕ → List (List ℕ)} {order : List ℕ}
    {slots : ℕ → List (List ℕ)} {i : ℕ} (h : i ∉ order) :
    runTasks work order slots i = slots i := by
  induction order generalizing slots with
  | nil => rfl
  | cons o rest ih =>
    rw [runTasks]
    have hio : i ≠ o := fun he => h (he ▸ List.mem_cons_self o rest)
    have hir : i ∉ rest := fun he => h (List.mem_cons_of_mem o he)
    rw [ih hir]
    exact Function.update_noteq hio _ _

theorem runTasks_mem {work : ℕ → List (List ℕ)} {order : List ℕ}
    {slots : ℕ → List (List ℕ)} {i : ℕ} (h : i ∈ order) :
    runTasks work order slots i = work i := by
  induction order generalizing slots with
  | nil => cases h
  | cons o rest ih =>
    rw [runTasks]
    by_cases hir : i ∈ rest
    · exact ih hir
    · have hio : i = o := by
        rcases List.mem_cons.mp h with he | he
        · exact he
        · exact absurd he hir
      rw [runTasks_not_mem hir]
      subst hio
      exact Function.update_same i _ slots

/-- Any worker order that completes every task yields the sequential
result: the cluster stage read back after the barrier equals the ordered
map of the clusterer over the partitions. -/
theorem scheduleRun_eq_sequential {cfg : MapperPipeline} {flt : ℚ → ℚ}
    {xs : List ℚ} {order : List ℕ}
    (h : ∀ e < (partitionsOf cfg flt xs).length, e ∈ order) :
    scheduleRun cfg flt xs order =
      (partitionsOf cfg flt xs).map (clusterOne cfg xs) := by
  apply List.ext_getElem
  · simp [scheduleRun]
  · intro i hi hi'
    have hlen : i < (partitionsOf cfg flt xs).length := by
      simpa using hi'
    simp only [scheduleRun]
    rw [List.getElem_map, List.getElem_range, List.getElem_map]
    rw [runTasks_mem (h i hlen)]
    simp only [clusterTask]
    congr 1
    exact List.getD_eq_getElem _ _ hlen

/-- The partitioner applied while iterating over the points in the
arbitrary order `ord` instead of index order. -/
def partitionOfIter (flt : ℚ → ℚ) (xs : List ℚ) (I : Interval)
    (ord : List ℕ) : List ℕ :=
  ord.filter (fun i => memb I (fval flt xs i))

/-- The partitioner's result is independent of the point iteration order:
iterating the points in any order produces the same point-index set. -/
theorem partitionOfIter_perm {flt : ℚ → ℚ} {xs : List ℚ} {I : Interval}
    {ord : List ℕ} (h : ord.Perm (List.range xs.length)) :
    (partitionOfIter flt xs I ord).Perm (partitionOf flt xs I) :=
  h.filter _

end GiottoMapper

namespace GiottoBuild

/-- The top-level commands of the CI build script (src/unnamed/part_001),
one constructor per executed line, in source order. Comment-only lines are
omitted; the stray `displayName: ...` line is kept because the shell would
attempt to execute it. -/
inductive BuildCmd where
  | echoFolders
  | listFiles
  | echoPythonVer
  | upgradePipSetuptools
  | whichCmake
  | pipInstallCmakeAll
  | listPythonBin
  | assignCmakeBin
  | linkCmake
  | yumInstallBoost
  | pipInstallProject
  | pipUninstallGiotto
  | pipInstallWheelTwine
  | pytestCov
  | flake8
  | displayNameLine
  | buildPackages
deriving DecidableEq, Repr

/-- The script's command sequence: `echo 'files and folders: '`, `ls`,
`echo $python_ver`, `pip install --upgrade pip setuptools`, `which cmake`,
the cmake pip-install loop, `ls /opt/python/...`, `CMAKE_BIN=...`,
`ln -sf ...`, `yum install -y boost148.x86_64`, `pip install -e /io/.`,
`pip uninstall -y giotto-learn`, `pip install wheel twine`,
`pytest --cov /io/giotto/ --cov-report xml`, `flake8 --exit-zero /io/`,
the stray `displayName:` line, and finally
`python /io/setup.py sdist bdist_wheel`. -/
def buildScript : List BuildCmd :=
  [.echoFolders, .listFiles, .echoPythonVer, .upgradePipSetuptools,
   .whichCmake, .pipInstallCmakeAll, .listPythonBin, .assignCmakeBin,
   .linkCmake, .yumInstallBoost, .pipInstallProject, .pipUninstallGiotto,
   .pipInstallWheelTwine, .pytestCov, .flake8, .displayNameLine,
   .buildPackages]

/-- Semantics of a `bash` script running under `set -e` (line 3 of the
script, `set -e -x`): commands execute in order; a command with nonzero
exit status executes but is the last command executed — every later
command is skipped.  `exitOf` gives each command's exit status; the result
is the list of commands actually executed. -/
def runScript (exitOf : BuildCmd → ℕ) : List BuildCmd → List BuildCmd
  | [] => []
  | c :: rest => if exitOf c = 0 then c :: runScript exitOf rest else [c]

/-- Under `set -e`, no command occurring after a failing command is ever
executed (for a script without repeated commands). -/
theorem runScript_stops {exitOf : BuildCmd → ℕ} {c : BuildCmd} :
    ∀ {l₁ l₂ : List BuildCmd}, (l₁ ++ c :: l₂).Nodup → exitOf c ≠ 0 →
      ∀ c' ∈ l₂, c' ∉ runScript exitOf (l₁ ++ c :: l₂) := by
  intro l₁
  induction l₁ with
  | nil =>
    intro l₂ hnd hc c' hc' hmem
    rw [List.nil_append, runScript, if_neg hc] at hmem
    rcases List.mem_singleton.mp hmem with rfl
    rw [List.nil_append] at hnd
    exact (List.nodup_cons.mp hnd).1 hc'
  | cons a l₁ ih =>
    intro l₂ hnd hc c' hc' hmem
    rw [List.cons_append, runScript] at hmem
    have hnd' : (l₁ ++ c :: l₂).Nodup :=
      (List.nodup_cons.mp (List.cons_append a l₁ (c :: l₂) ▸ hnd)).2
    have hane : a ∉ l₁ ++ c :: l₂ :=
      (List.nodup_cons.mp (List.cons_append a l₁ (c :: l₂) ▸ hnd)).1
    have hca : c' ≠ a := by
      intro he
      exact hane (he ▸ List.mem_append_right l₁ (List.mem_cons_of_mem c hc'))
    by_cases ha : exitOf a = 0
    · rw [if_pos ha] at hmem
      rcases List.mem_cons.mp hmem with he | he
      · exact hca he
      · exact ih hnd' hc c' hc' he
    · rw [if_neg ha] at hmem
      exact hca (List.mem_singleton.mp hmem)

end GiottoBuild

namespace GiottoMapper

/-- C9: for every configured cover — one-dimensional or cubical — the
union of all cover elements' value ranges covers the full observed filter
range with no gaps: every value inside the observed range (in every
dimension, for the cubical cover) satisfies at least one cover element's
membership predicate. -/
theorem cover_completeness {mn mx : ℚ} {n : ℕ} {p : ℚ} {x : ℚ}
    {ranges : List (ℚ × ℚ)} {xv : List ℚ}
    (hn : 0 < n) (hp : 0 ≤ p) (h1 : mn ≤ x) (h2 : x ≤ mx)
    (hlen : xv.length = ranges.length)
    (hin : List.Forall₂ (fun (v : ℚ) (r : ℚ × ℚ) => r.1 ≤ v ∧ v ≤ r.2)
      xv ranges) :
    (∃ I ∈ OneDimensionalCover mn mx n p, memb I x = true) ∧
    (∃ Is ∈ CubicalCover ranges n p, membCube Is xv = true) :=
  ⟨oneDCover_complete hn hp h1 h2, cubicalCover_complete hn hp hlen hin⟩

theorem cover_completeness_witness :
    (∃ I ∈ OneDimensionalCover 0 1 2 (1/2), memb I (1/2) = true) ∧
    (∃ Is ∈ CubicalCover [(0, 1), (0, 2)] 2 (1/2),
      membCube Is [1/2, 1] = true) :=
  cover_completeness (by decide) (by decide) (by decide) (by decide)
    (by decide)
    (List.Forall₂.cons (by decide)
      (List.Forall₂.cons (by decide) List.Forall₂.nil))

/-- C3: for every input of `N` points, the union over all cover elements
of the partitioner's point-index sets equals the full index set
`{0, ..., N-1}` (no minimum-cluster-size policy exists at the partition
stage of this model, so no point is dropped): a point index belongs to
some cover element's partition exactly when it is a valid index. -/
theorem partition_completeness {cfg : MapperPipeline} {flt : ℚ → ℚ}
    {xs : List ℚ} (hv : validConfig cfg = true) (i : ℕ) :
    i ∈ List.range xs.length ↔
      ∃ part ∈ partitionsOf cfg flt xs, i ∈ part := by
  simp only [validConfig, Bool.and_eq_true, decide_eq_true_eq] at hv
  constructor
  · intro hi
    have hiN : i < xs.length := List.mem_range.mp hi
    have hlen : (filterValues flt xs).length = xs.length :=
      List.length_map xs flt
    have hfv : fval flt xs i ∈ filterValues flt xs := by
      rw [fval, List.getD_eq_getElem _ _ (hlen ▸ hiN)]
      exact List.getElem_mem _
    have hmn : listMin (filterValues flt xs) ≤ fval flt xs i :=
      listMin_le hfv
    have hmx : fval flt xs i ≤ listMax (filterValues flt xs) :=
      le_listMax hfv
    obtain ⟨I, hI, hmemb⟩ :=
      oneDCover_complete hv.1.1.1 (le_of_lt hv.1.1.2) hmn hmx
    refine ⟨partitionOf flt xs I, ?_, ?_⟩
    · exact List.mem_map.mpr ⟨I, hI, rfl⟩
    · exact mem_partitionOf.mpr ⟨hiN, hmemb⟩
  · rintro ⟨part, hpart, hi⟩
    obtain ⟨I, _, hIeq⟩ := List.mem_map.mp hpart
    rw [← hIeq] at hi
    exact List.mem_range.mpr (mem_partitionOf.mp hi).1

theorem partition_completeness_witness :
    (0 ∈ List.range ([0, 1] : List ℚ).length ↔
      ∃ part ∈ partitionsOf ⟨2, 1/2, 1⟩ (fun v => v) [0, 1], 0 ∈ part) :=
  @partition_completeness ⟨2, 1/2, 1⟩ (fun v => v) [0, 1] (by decide) 0

/-- C4: a malformed configuration — in particular `n_intervals = 0` —
makes the pipeline fail with `InvalidParameter` at fit time: the run
returns the error and no graph, so no partitioning or clustering work is
reflected in any output. -/
theorem invalid_config_fails_fast {cfg : MapperPipeline} {flt : ℚ → ℚ}
    {xs : List ℚ} (h : cfg.nIntervals = 0 ∨ validConfig cfg = false) :
    runMapperPipeline cfg flt xs = Except.error MapperError.invalidParameter := by
  have hv : validConfig cfg = false := by
    rcases h with h | h
    · simp [validConfig, h]
    · exact h
  simp [runMapperPipeline, fit, hv, Except.map]

theorem invalid_config_fails_fast_witness :
    runMapperPipeline ⟨0, 1/2, 1⟩ (fun v => v) [0, 1] =
      Except.error MapperError.invalidParameter :=
  @invalid_config_fails_fast ⟨0, 1/2, 1⟩ (fun v => v) [0, 1] (Or.inl rfl)

/-- C5: a constant-valued filter (degenerate range, `min = max`) makes the
cover produce exactly one interval covering that value — no
division-by-zero failure — and the resulting graph has exactly as many
nodes as the clusterer finds on the full point set. -/
theorem degenerate_filter_single_interval {cfg : MapperPipeline}
    {flt : ℚ → ℚ} {xs : List ℚ} {c : ℚ}
    (hxs : xs ≠ []) (hconst : ∀ x, flt x = c) :
    coverOf cfg flt xs = [⟨c, c⟩] ∧ memb ⟨c, c⟩ c = true ∧
    (transform cfg flt xs).nodes.length =
      (clusterOne cfg xs (List.range xs.length)).length := by
  have hvals : ∀ v ∈ filterValues flt xs, v = c := by
    intro v hv
    obtain ⟨x, _, hx⟩ := List.mem_map.mp hv
    rw [← hx, hconst]
  have hne : filterValues flt xs ≠ [] := by
    rw [filterValues]
    exact fun he => hxs (List.map_eq_nil_iff.mp he)
  have hmn : listMin (filterValues flt xs) = c := listMin_const hne hvals
  have hmx : listMax (filterValues flt xs) = c := listMax_const hne hvals
  have hcover : coverOf cfg flt xs = [⟨c, c⟩] := by
    rw [coverOf, hmn, hmx, OneDimensionalCover_degenerate]
  refine ⟨hcover, by simp [memb], ?_⟩
  have hpartfull : partitionOf flt xs ⟨c, c⟩ = List.range xs.length := by
    rw [partitionOf]
    apply List.filter_eq_self.mpr
    intro a ha
    have haN : a < xs.length := List.mem_range.mp ha
    have hlen : (filterValues flt xs).length = xs.length :=
      List.length_map xs flt
    have hfa : fval flt xs a = c := by
      rw [fval, List.getD_eq_getElem _ _ (hlen ▸ haN)]
      exact hvals _ (List.getElem_mem _)
    rw [hfa]
    simp [memb]
  have hparts : partitionsOf cfg flt xs = [List.range xs.length] := by
    rw [partitionsOf, hcover, List.map_cons, List.map_nil, hpartfull]
  have hnodes : (transform cfg flt xs).nodes = nodesOf cfg flt xs := rfl
  rw [hnodes, nodesOf, hparts]
  simp [List.enum, List.enumFrom, hpartfull]

theorem degenerate_filter_single_interval_witness :
    coverOf ⟨3, 1/2, 1⟩ (fun _ => 5) [1, 2] = [⟨5, 5⟩] ∧
    memb ⟨5, 5⟩ 5 = true ∧
    (transform ⟨3, 1/2, 1⟩ (fun _ => 5) [1, 2]).nodes.length =
      (clusterOne ⟨3, 1/2, 1⟩ [1, 2]
        (List.range ([1, 2] : List ℚ).length)).length :=
  @degenerate_filter_single_interval ⟨3, 1/2, 1⟩ (fun _ => 5) [1, 2] 5
    (by decide) (fun _ => rfl)

/-- C7: a point whose filter value satisfies the (inflated) membership
predicate of several cover elements — in particular a point tying exactly
with an interval boundary — is assigned to all of those elements'
partitions, each of which the pipeline carries: never to only one of
them, and never as an error. -/
theorem boundary_tie_assigned_to_all {cfg : MapperPipeline} {flt : ℚ → ℚ}
    {xs : List ℚ} {i : ℕ} {I₁ I₂ : Interval}
    (h₁ : I₁ ∈ coverOf cfg flt xs) (h₂ : I₂ ∈ coverOf cfg flt xs)
    (hi : i < xs.length)
    (hm₁ : memb I₁ (fval flt xs i) = true)
    (hm₂ : memb I₂ (fval flt xs i) = true) :
    (i ∈ partitionOf flt xs I₁ ∧ i ∈ partitionOf flt xs I₂) ∧
    partitionOf flt xs I₁ ∈ partitionsOf cfg flt xs ∧
    partitionOf flt xs I₂ ∈ partitionsOf cfg flt xs :=
  ⟨⟨mem_partitionOf.mpr ⟨hi, hm₁⟩, mem_partitionOf.mpr ⟨hi, hm₂⟩⟩,
   List.mem_map.mpr ⟨I₁, h₁, rfl⟩, List.mem_map.mpr ⟨I₂, h₂, rfl⟩⟩

theorem boundary_tie_assigned_to_all_witness :
    ((1 ∈ partitionOf (fun v => v) [0, 5/8, 1] ⟨-(1/8), 5/8⟩ ∧
      1 ∈ partitionOf (fun v => v) [0, 5/8, 1] ⟨3/8, 9/8⟩) ∧
    partitionOf (fun v => v) [0, 5/8, 1] ⟨-(1/8), 5/8⟩ ∈
      partitionsOf ⟨2, 1/2, 10⟩ (fun v => v) [0, 5/8, 1] ∧
    partitionOf (fun v => v) [0, 5/8, 1] ⟨3/8, 9/8⟩ ∈
      partitionsOf ⟨2, 1/2, 10⟩ (fun v => v) [0, 5/8, 1]) :=
  @boundary_tie_assigned_to_all ⟨2, 1/2, 10⟩ (fun v => v) [0, 5/8, 1] 1
    ⟨-(1/8), 5/8⟩ ⟨3/8, 9/8⟩ (by decide) (by decide) (by decide)
    (by decide) (by decide)

end GiottoMapper

namespace GiottoBuild

/-- C10: under `set -e` (line 3 of the build script), once any command
exits with a nonzero status no subsequent command of the script is
executed; in particular the packaging step
(`python /io/setup.py sdist bdist_wheel`) never runs when the test step
(`pytest`) fails. -/
theorem set_e_stops_after_failure :
    (∀ (exitOf : BuildCmd → ℕ) (l₁ l₂ : List BuildCmd) (c : BuildCmd),
      (l₁ ++ c :: l₂).Nodup → exitOf c ≠ 0 →
      ∀ c' ∈ l₂, c' ∉ runScript exitOf (l₁ ++ c :: l₂)) ∧
    (∀ exitOf : BuildCmd → ℕ, exitOf .pytestCov ≠ 0 →
      BuildCmd.buildPackages ∉ runScript exitOf buildScript) := by
  constructor
  · intro exitOf l₁ l₂ c hnd hc c' hc'
    exact runScript_stops hnd hc c' hc'
  · intro exitOf hfail
    have hsplit : buildScript =
        [BuildCmd.echoFolders, .listFiles, .echoPythonVer,
         .upgradePipSetuptools, .whichCmake, .pipInstallCmakeAll,
         .listPythonBin, .assignCmakeBin, .linkCmake, .yumInstallBoost,
         .pipInstallProject, .pipUninstallGiotto, .pipInstallWheelTwine] ++
        BuildCmd.pytestCov ::
        [BuildCmd.flake8, .displayNameLine, .buildPackages] := rfl
    rw [hsplit]
    exact runScript_stops (by decide) hfail BuildCmd.buildPackages
      (by decide)

theorem set_e_stops_after_failure_witness :
    BuildCmd.buildPackages ∉
      runScript (fun c => if c = BuildCmd.pytestCov then 1 else 0)
        buildScript :=
  set_e_stops_after_failure.2
    (fun c => if c = BuildCmd.pytestCov then 1 else 0) (by decide)

end GiottoBuild

namespace GiottoMapper

/-- C6: for every cover element's partition carried by the pipeline, the
cluster assigner produces zero or more pairwise-disjoint clusters whose
union equals the partition's point set (no point dropped), and a
degenerate single-point partition yields exactly one cluster containing
that point rather than an error. -/
theorem cluster_assigner_contract {cfg : MapperPipeline} {flt : ℚ → ℚ}
    {xs : List ℚ} {part : List ℕ}
    (hpart : part ∈ partitionsOf cfg flt xs) :
    ((clusterOne cfg xs part).flatten.Perm part) ∧
    (∀ k l (hk : k < (clusterOne cfg xs part).length)
       (hl : l < (clusterOne cfg xs part).length), k ≠ l →
       ∀ a ∈ (clusterOne cfg xs part).get ⟨k, hk⟩,
         a ∉ (clusterOne cfg xs part).get ⟨l, hl⟩) ∧
    (∀ i, part = [i] → clusterOne cfg xs part = [[i]]) := by
  have hnd : part.Nodup := partitions_mem_nodup hpart
  refine ⟨FirstSimpleGap_flatten_perm _ _ _, ?_, ?_⟩
  · intro k l hk hl hkl
    exact disjoint_of_nodup_flatten
      (clusterOne_flatten_nodup cfg xs hnd) hk hl hkl
  · intro i he
    subst he
    rfl

theorem cluster_assigner_contract_witness :
    ((clusterOne ⟨1, 1/2, 1⟩ [0, 10] [0, 1]).flatten.Perm [0, 1]) ∧
    (∀ k l (hk : k < (clusterOne ⟨1, 1/2, 1⟩ [0, 10] [0, 1]).length)
       (hl : l < (clusterOne ⟨1, 1/2, 1⟩ [0, 10] [0, 1]).length), k ≠ l →
       ∀ a ∈ (clusterOne ⟨1, 1/2, 1⟩ [0, 10] [0, 1]).get ⟨k, hk⟩,
         a ∉ (clusterOne ⟨1, 1/2, 1⟩ [0, 10] [0, 1]).get ⟨l, hl⟩) ∧
    (∀ i, ([0, 1] : List ℕ) = [i] →
       clusterOne ⟨1, 1/2, 1⟩ [0, 10] [0, 1] = [[i]]) :=
  @cluster_assigner_contract ⟨1, 1/2, 1⟩ (fun _ => 0) [0, 10] [0, 1]
    (by decide)

/-- C2: determinism of the pipeline under the concurrency model: any
worker order that completes every clustering task produces the sequential
cluster-stage result, so two runs whose worker pools finish the tasks in
different orders (any pool sizes) read back identical results after the
barrier; and the partitioner's result is independent of the point
iteration order. -/
theorem pipeline_schedule_deterministic {cfg : MapperPipeline}
    {flt : ℚ → ℚ} {xs : List ℚ} {ord₁ ord₂ pord : List ℕ} {I : Interval}
    (h₁ : ∀ e < (partitionsOf cfg flt xs).length, e ∈ ord₁)
    (h₂ : ∀ e < (partitionsOf cfg flt xs).length, e ∈ ord₂)
    (hp : pord.Perm (List.range xs.length)) :
    scheduleRun cfg flt xs ord₁ =
      (partitionsOf cfg flt xs).map (clusterOne cfg xs) ∧
    scheduleRun cfg flt xs ord₁ = scheduleRun cfg flt xs ord₂ ∧
    (partitionOfIter flt xs I pord).Perm (partitionOf flt xs I) := by
  refine ⟨scheduleRun_eq_sequential h₁, ?_, partitionOfIter_perm hp⟩
  rw [scheduleRun_eq_sequential h₁, scheduleRun_eq_sequential h₂]

theorem pipeline_schedule_deterministic_witness :
    scheduleRun ⟨2, 1/2, 1⟩ (fun v => v) [0, 1] [1, 0] =
      (partitionsOf ⟨2, 1/2, 1⟩ (fun v => v) [0, 1]).map
        (clusterOne ⟨2, 1/2, 1⟩ [0, 1]) ∧
    scheduleRun ⟨2, 1/2, 1⟩ (fun v => v) [0, 1] [1, 0] =
      scheduleRun ⟨2, 1/2, 1⟩ (fun v => v) [0, 1] [0, 1, 5] ∧
    (partitionOfIter (fun v => v) [0, 1] ⟨0, 1⟩ [1, 0]).Perm
      (partitionOf (fun v => v) [0, 1] ⟨0, 1⟩) :=
  @pipeline_schedule_deterministic ⟨2, 1/2, 1⟩ (fun v => v) [0, 1]
    [1, 0] [0, 1, 5] [1, 0] ⟨0, 1⟩ (by decide) (by decide) (by decide)

/-- C1: in every graph returned by the pipeline, an edge exists between
two distinct node positions `i < j` exactly when the nodes' point-index
sets intersect; the edge's weight is the exact size of that intersection;
no reversed duplicate of the pair is stored and the edge list has no
duplicate entries — at most one edge per node pair. -/
theorem edge_iff_shared_point {cfg : MapperPipeline} {flt : ℚ → ℚ}
    {xs : List ℚ} {i j : ℕ} (hij : i < j)
    (hj : j < (transform cfg flt xs).nodes.length) :
    ((∃ w, (i, j, w) ∈ (transform cfg flt xs).edges) ↔
      ∃ a, a ∈ ((transform cfg flt xs).nodes.getD i ⟨0, 0, []⟩).pts ∧
        a ∈ ((transform cfg flt xs).nodes.getD j ⟨0, 0, []⟩).pts) ∧
    (∀ w, (i, j, w) ∈ (transform cfg flt xs).edges →
      w = (((transform cfg flt xs).nodes.getD i ⟨0, 0, []⟩).pts.toFinset ∩
        ((transform cfg flt xs).nodes.getD j ⟨0, 0, []⟩).pts.toFinset).card) ∧
    (∀ w, (j, i, w) ∉ (transform cfg flt xs).edges) ∧
    (transform cfg flt xs).edges.Nodup := by
  have hj' : j < (nodesOf cfg flt xs).length := hj
  have hi' : i < (nodesOf cfg flt xs).length := lt_trans hij hj'
  have himem : (nodesOf cfg flt xs).getD i ⟨0, 0, []⟩ ∈ nodesOf cfg flt xs := by
    rw [List.getD_eq_getElem _ _ hi']
    exact List.getElem_mem _
  refine ⟨?_, ?_, ?_, buildEdges_nodup _⟩
  · constructor
    · rintro ⟨w, hw⟩
      obtain ⟨_, _, hww, hpos⟩ := mem_buildEdges.mp hw
      rw [hww, interWeight] at hpos
      exact inter_length_pos_iff.mp hpos
    · rintro ⟨a, ha₁, ha₂⟩
      have hpos : 0 < interWeight
          ((nodesOf cfg flt xs).getD i ⟨0, 0, []⟩)
          ((nodesOf cfg flt xs).getD j ⟨0, 0, []⟩) := by
        rw [interWeight]
        exact inter_length_pos_iff.mpr ⟨a, ha₁, ha₂⟩
      exact ⟨_, mem_buildEdges.mpr ⟨hij, hj', rfl, hpos⟩⟩
  · intro w hw
    obtain ⟨_, _, hww, _⟩ := mem_buildEdges.mp hw
    rw [hww]
    exact interWeight_eq_card (node_pts_nodup himem)
  · intro w hw
    obtain ⟨hji, _, _, _⟩ := mem_buildEdges.mp hw
    exact lt_asymm hij hji

theorem edge_iff_shared_point_witness :
    ((∃ w, (0, 1, w) ∈ (transform ⟨2, 1/2, 10⟩ (fun v => v) [0, 5/8, 1]).edges) ↔
      ∃ a, a ∈ ((transform ⟨2, 1/2, 10⟩ (fun v => v) [0, 5/8, 1]).nodes.getD 0
          ⟨0, 0, []⟩).pts ∧
        a ∈ ((transform ⟨2, 1/2, 10⟩ (fun v => v) [0, 5/8, 1]).nodes.getD 1
          ⟨0, 0, []⟩).pts) ∧
    (∀ w, (0, 1, w) ∈ (transform ⟨2, 1/2, 10⟩ (fun v => v) [0, 5/8, 1]).edges →
      w = (((transform ⟨2, 1/2, 10⟩ (fun v => v) [0, 5/8, 1]).nodes.getD 0
          ⟨0, 0, []⟩).pts.toFinset ∩
        ((transform ⟨2, 1/2, 10⟩ (fun v => v) [0, 5/8, 1]).nodes.getD 1
          ⟨0, 0, []⟩).pts.toFinset).card) ∧
    (∀ w, (1, 0, w) ∉ (transform ⟨2, 1/2, 10⟩ (fun v => v) [0, 5/8, 1]).edges) ∧
    (transform ⟨2, 1/2, 10⟩ (fun v => v) [0, 5/8, 1]).edges.Nodup :=
  @edge_iff_shared_point ⟨2, 1/2, 10⟩ (fun v => v) [0, 5/8, 1] 0 1
    (by decide) (by decide)

/-- C8: any two distinct nodes originating from the same cover element
have disjoint point-index sets; consequently the output graph has no
self-edges and no edges between two nodes of the same cover element. -/
theorem same_element_disjoint_no_same_elem_edges (cfg : MapperPipeline)
    (flt : ℚ → ℚ) (xs : List ℚ) :
    (∀ n₁ ∈ (transform cfg flt xs).nodes, ∀ n₂ ∈ (transform cfg flt xs).nodes,
      n₁ ≠ n₂ → n₁.elem = n₂.elem → ∀ a ∈ n₁.pts, a ∉ n₂.pts) ∧
    (∀ i j w, (i, j, w) ∈ (transform cfg flt xs).edges → i ≠ j) ∧
    (∀ i j w, (i, j, w) ∈ (transform cfg flt xs).edges →
      ((transform cfg flt xs).nodes.getD i ⟨0, 0, []⟩).elem ≠
      ((transform cfg flt xs).nodes.getD j ⟨0, 0, []⟩).elem) := by
  refine ⟨?_, ?_, ?_⟩
  · intro n₁ h₁ n₂ h₂ hne helem
    exact nodes_same_elem_disjoint h₁ h₂ hne helem
  · intro i j w hw
    exact ne_of_lt (mem_buildEdges.mp hw).1
  · intro i j w hw helem
    obtain ⟨hij, hjlen, hww, hpos⟩ := mem_buildEdges.mp hw
    have hilen : i < (nodesOf cfg flt xs).length := lt_trans hij hjlen
    have himem : (nodesOf cfg flt xs).getD i ⟨0, 0, []⟩ ∈
        nodesOf cfg flt xs := by
      rw [List.getD_eq_getElem _ _ hilen]
      exact List.getElem_mem _
    have hjmem : (nodesOf cfg flt xs).getD j ⟨0, 0, []⟩ ∈
        nodesOf cfg flt xs := by
      rw [List.getD_eq_getElem _ _ hjlen]
      exact List.getElem_mem _
    have hne : (nodesOf cfg flt xs).getD i ⟨0, 0, []⟩ ≠
        (nodesOf cfg flt xs).getD j ⟨0, 0, []⟩ := by
      rw [List.getD_eq_getElem _ _ hilen, List.getD_eq_getElem _ _ hjlen]
      intro he
      have hidx : (⟨i, hilen⟩ : Fin (nodesOf cfg flt xs).length) =
          ⟨j, hjlen⟩ :=
        ((nodesOf_nodup cfg flt xs).get_inj_iff).mp he
      exact (ne_of_lt hij) (congrArg Fin.val hidx)
    rw [hww, interWeight] at hpos
    obtain ⟨a, ha₁, ha₂⟩ := inter_length_pos_iff.mp hpos
    exact nodes_same_elem_disjoint himem hjmem hne helem a ha₁ ha₂

theorem same_element_disjoint_witness :
    ∀ a ∈ ([0] : List ℕ), a ∉ ([1] : List ℕ) :=
  (same_element_disjoint_no_same_elem_edges ⟨1, 1/2, 1⟩ (fun _ => 0)
      [0, 10]).1
    ⟨0, 0, [0]⟩ (by decide) ⟨0, 1, [1]⟩ (by decide) (by decide) rfl

end GiottoMapper
